import Mathlib

/-!
Verification of the Celestorm core against its specification.

This file shallowly embeds the Python sources of the Celestorm repository:

* `celestorm/utils/varint.py` — the LEB128-style varint codec;
* `celestorm/encoding/packaging.py` — the single-flag package dialect
  (`Package.build` / `Package.deserialize` / `Package.verify`);
* `tests/dclscud/encoding/package.py` — the two-flag package dialect
  (`Package._create_from` / `Package._serialized_instructions`) together with
  the slice accessors of `celestorm/encoding/__init__.py`;
* `celestorm/execution/__init__.py` and `tests/dclscud/execution.py` — the
  sync-round state machine over a transacted revision-tracked storage;
* `celestorm/celestia/transport.py` — the DA receiver loop.

Bytes are modelled as `Nat` values below 256, byte strings as `List Nat`.
`hashlib.sha256` is embedded as a concrete executable SHA-256 over byte
lists; incremental `hasher.update` calls are modelled by hashing the
concatenation of all fed bytes, which is the documented semantics of the
`Hasher` protocol.  Python exceptions are modelled with `Except`/`Option`.
-/

namespace Celestorm

/-! ## SHA-256 over byte lists

Embedding of `hashlib.sha256` (FIPS 180-4).  Words are `Nat` values kept
below `2 ^ 32` with explicit `% w32`. -/

def w32 : Nat := 4294967296

def rotr (n x : Nat) : Nat := ((x >>> n) ||| (x <<< (32 - n))) % w32

def bsig0 (x : Nat) : Nat := rotr 2 x ^^^ rotr 13 x ^^^ rotr 22 x

def bsig1 (x : Nat) : Nat := rotr 6 x ^^^ rotr 11 x ^^^ rotr 25 x

def ssig0 (x : Nat) : Nat := rotr 7 x ^^^ rotr 18 x ^^^ (x >>> 3)

def ssig1 (x : Nat) : Nat := rotr 17 x ^^^ rotr 19 x ^^^ (x >>> 10)

def chf (e f g : Nat) : Nat := (e &&& f) ^^^ ((e ^^^ 4294967295) &&& g)

def majf (a b c : Nat) : Nat := (a &&& b) ^^^ (a &&& c) ^^^ (b &&& c)

def sha256K : List Nat :=
  [1116352408, 1899447441, 3049323471, 3921009573, 961987163,
   1508970993, 2453635748, 2870763221, 3624381080, 310598401,
   607225278, 1426881987, 1925078388, 2162078206, 2614888103,
   3248222580, 3835390401, 4022224774, 264347078, 604807628,
   770255983, 1249150122, 1555081692, 1996064986, 2554220882,
   2821834349, 2952996808, 3210313671, 3336571891, 3584528711,
   113926993, 338241895, 666307205, 773529912, 1294757372,
   1396182291, 1695183700, 1986661051, 2177026350, 2456956037,
   2730485921, 2820302411, 3259730800, 3345764771, 3516065817,
   3600352804, 4094571909, 275423344, 430227734, 506948616,
   659060556, 883997877, 958139571, 1322822218, 1537002063,
   1747873779, 1955562222, 2024104815, 2227730452, 2361852424,
   2428436474, 2756734187, 3204031479, 3329325298]

structure HState where
  a : Nat
  b : Nat
  c : Nat
  d : Nat
  e : Nat
  f : Nat
  g : Nat
  h : Nat
deriving DecidableEq, Repr

def sha256IV : HState :=
  ⟨1779033703, 3144134277, 1013904242, 2773480762,
   1359893119, 2600822924, 528734635, 1541459225⟩

def sha256Round (st : HState) (wk : Nat × Nat) : HState :=
  let t1 := (st.h + bsig1 st.e + chf st.e st.f st.g + wk.2 + wk.1) % w32
  let t2 := (bsig0 st.a + majf st.a st.b st.c) % w32
  ⟨(t1 + t2) % w32, st.a, st.b, st.c, (st.d + t1) % w32, st.e, st.f, st.g⟩

def extendSchedule : Nat → List Nat → List Nat
  | 0, ws => ws
  | k + 1, ws =>
    let n := ws.length
    let w := (ssig1 (ws.getD (n - 2) 0) + ws.getD (n - 7) 0 +
              ssig0 (ws.getD (n - 15) 0) + ws.getD (n - 16) 0) % w32
    extendSchedule k (ws ++ [w])

def bytesToWordsBE : List Nat → List Nat
  | b0 :: b1 :: b2 :: b3 :: rest =>
    ((b0 <<< 24) + (b1 <<< 16) + (b2 <<< 8) + b3) :: bytesToWordsBE rest
  | _ => []

def sha256Block (st : HState) (block : List Nat) : HState :=
  let ws := extendSchedule 48 block
  let r := (ws.zip sha256K).foldl sha256Round st
  ⟨(st.a + r.a) % w32, (st.b + r.b) % w32, (st.c + r.c) % w32, (st.d + r.d) % w32,
   (st.e + r.e) % w32, (st.f + r.f) % w32, (st.g + r.g) % w32, (st.h + r.h) % w32⟩

def chunkBlocks : Nat → List Nat → List (List Nat)
  | 0, _ => []
  | k + 1, l => bytesToWordsBE (l.take 64) :: chunkBlocks k (l.drop 64)

def len64be (n : Nat) : List Nat :=
  [(n >>> 56) % 256, (n >>> 48) % 256, (n >>> 40) % 256, (n >>> 32) % 256,
   (n >>> 24) % 256, (n >>> 16) % 256, (n >>> 8) % 256, n % 256]

def sha256Pad (msg : List Nat) : List Nat :=
  msg ++ 0x80 :: List.replicate ((119 - msg.length % 64) % 64) 0 ++ len64be (8 * msg.length)

def wordBytesBE (w : Nat) : List Nat :=
  [(w >>> 24) % 256, (w >>> 16) % 256, (w >>> 8) % 256, w % 256]

def digestBytes (st : HState) : List Nat :=
  wordBytesBE st.a ++ wordBytesBE st.b ++ wordBytesBE st.c ++ wordBytesBE st.d ++
  wordBytesBE st.e ++ wordBytesBE st.f ++ wordBytesBE st.g ++ wordBytesBE st.h

/-- Embedding of `hashlib.sha256(msg).digest()`: the 32 digest bytes of a
byte list.  Verified against the FIPS 180-4 test vectors for the empty
message and for the message `"abc"`. -/
def sha256 (msg : List Nat) : List Nat :=
  let padded := sha256Pad msg
  digestBytes ((chunkBlocks (padded.length / 64) padded).foldl sha256Block sha256IV)

theorem digestBytes_length (st : HState) : (digestBytes st).length = 32 := by
  simp [digestBytes, wordBytesBE]

theorem sha256_length (msg : List Nat) : (sha256 msg).length = 32 := by
  simp [sha256, digestBytes_length]

/-! ## Varint codec (`celestorm/utils/varint.py`) -/

namespace Varint

/-- Embedding of `varint.encode` on a non-negative `number`: each loop
iteration emits `number & 0x7f`, shifted right by 7; the continuation bit
`0x80` is set on all but the last emitted byte. -/
def encode (number : Nat) : List Nat :=
  if h : number >>> 7 = 0 then [number &&& 0x7f]
  else (number &&& 0x7f ||| 0x80) :: encode (number >>> 7)
termination_by number
decreasing_by
  have h2 : number >>> 7 = number / 2 ^ 7 := Nat.shiftRight_eq_div_pow number 7
  have hpos : 0 < number := by
    rcases Nat.eq_zero_or_pos number with h0 | h0
    · subst h0; simp at h
    · exact h0
  omega

/-- Embedding of the loop of `varint.encode` on an arbitrary Python integer,
with explicit fuel.  Python `number & 0x7f` on a (possibly negative) integer
is `number.emod 128`, and the arithmetic shift `number >>= 7` is
`number.fdiv 128`; the loop exits only when the shifted value becomes zero.
`none` means the fuel ran out before the loop exited. -/
def encodeLoop : Nat → Int → Option (List Nat)
  | 0, _ => none
  | fuel + 1, number =>
    let towrite := (number.emod 128).toNat
    let rest := number.fdiv 128
    if rest = 0 then some [towrite]
    else
      match encodeLoop fuel rest with
      | none => none
      | some buf => some ((towrite ||| 0x80) :: buf)

/-- Embedding of `varint.decode_stream_ex` (the loop over `_read_one_ex`):
returns the decoded value, the consumed bytes and the unconsumed remainder
of the stream, or `none` when the stream ends mid-number (`EOFError`). -/
def decodeCore : List Nat → Nat → Nat → Option (Nat × List Nat × List Nat)
  | [], _, _ => none
  | i :: rest, shift, result =>
    let result' := result ||| ((i &&& 0x7f) <<< shift)
    if i &&& 0x80 = 0 then some (result', [i], rest)
    else
      match decodeCore rest (shift + 7) result' with
      | none => none
      | some (r, consumed, tail) => some (r, i :: consumed, tail)

def decodeStreamEx (s : List Nat) : Option (Nat × List Nat × List Nat) :=
  decodeCore s 0 0

theorem encode_eq (number : Nat) :
    encode number =
      if number >>> 7 = 0 then [number &&& 0x7f]
      else (number &&& 0x7f ||| 0x80) :: encode (number >>> 7) := by
  rw [encode, dif_eq_if]

theorem and_127_of_lt {n : Nat} (hn : n < 128) : n &&& 0x7f = n := by
  have := Nat.and_pow_two_sub_one_of_lt_two_pow (x := n) (n := 7) (by norm_num; omega)
  norm_num at this
  exact this

theorem and_128_of_lt {n : Nat} (hn : n < 128) : n &&& 0x80 = 0 := by
  have h7 : n < 2 ^ 7 := by norm_num; omega
  have h := Nat.and_two_pow n 7
  rw [Nat.testBit_lt_two_pow h7] at h
  norm_num at h
  exact h

theorem and_127_eq_mod (n : Nat) : n &&& 0x7f = n % 128 := by
  have := Nat.and_pow_two_sub_one_eq_mod n 7
  norm_num at this
  exact this

theorem contByte_and_127 (n : Nat) : (n &&& 0x7f ||| 0x80) &&& 0x7f = n &&& 0x7f := by
  have c1 : (127 : Nat) &&& 127 = 127 := by decide
  have c2 : (128 : Nat) &&& 127 = 0 := by decide
  rw [Nat.and_distrib_right, Nat.and_assoc, c1, c2, Nat.or_zero]

theorem contByte_and_128 (n : Nat) : (n &&& 0x7f ||| 0x80) &&& 0x80 ≠ 0 := by
  have c3 : (127 : Nat) &&& 128 = 0 := by decide
  have c4 : (128 : Nat) &&& 128 = 128 := by decide
  rw [Nat.and_distrib_right, Nat.and_assoc, c3, c4, Nat.and_zero, Nat.zero_or]
  norm_num

theorem lor_shiftLeft_of_lt {acc m shift : Nat} (hacc : acc < 2 ^ shift) :
    acc ||| (m <<< shift) = 2 ^ shift * m + acc := by
  rw [Nat.shiftLeft_eq, Nat.lor_comm, mul_comm]
  exact (Nat.mul_add_lt_is_or hacc m).symm

theorem decodeCore_encode_append (n : Nat) :
    ∀ shift acc, acc < 2 ^ shift → ∀ tail,
      decodeCore (encode n ++ tail) shift acc =
        some (2 ^ shift * n + acc, encode n, tail) := by
  induction n using Nat.strong_induction_on with
  | _ n ih =>
    intro shift acc hacc tail
    have hsh : n >>> 7 = n / 128 := by
      rw [Nat.shiftRight_eq_div_pow]
    rw [encode_eq]
    by_cases h : n >>> 7 = 0
    · -- last byte: n < 128 and the emitted byte is n itself
      have hn : n < 128 := by omega
      simp only [h, if_pos, List.cons_append, List.nil_append, decodeCore,
        and_127_of_lt hn, and_128_of_lt hn, if_true]
      rw [lor_shiftLeft_of_lt hacc]
    · -- continuation byte
      have hacc' : acc ||| ((n &&& 0x7f) <<< shift) = 2 ^ shift * (n % 128) + acc := by
        rw [and_127_eq_mod, lor_shiftLeft_of_lt hacc]
      have hlt : 2 ^ shift * (n % 128) + acc < 2 ^ (shift + 7) := by
        have h1 : n % 128 < 128 := Nat.mod_lt _ (by norm_num)
        have h3 : 2 ^ (shift + 7) = 2 ^ shift * 128 := by rw [pow_add]; norm_num
        have h4 : (0:Nat) < 2 ^ shift := pow_pos (by norm_num) shift
        nlinarith
      have hrec := ih (n >>> 7) (by omega) (shift + 7)
        (2 ^ shift * (n % 128) + acc) hlt tail
      simp only [h, if_neg, List.cons_append, decodeCore, contByte_and_127,
        if_false, hacc']
      rw [if_neg (contByte_and_128 n), hrec]
      have harith : 2 ^ (shift + 7) * (n >>> 7) + (2 ^ shift * (n % 128) + acc) =
          2 ^ shift * n + acc := by
        rw [hsh, pow_add]
        have h3 : (2:Nat) ^ 7 = 128 := by norm_num
        rw [h3]
        nlinarith [Nat.div_add_mod n 128]
      rw [harith]

theorem decodeStreamEx_encode_append (n : Nat) (tail : List Nat) :
    decodeStreamEx (encode n ++ tail) = some (n, encode n, tail) := by
  have := decodeCore_encode_append n 0 0 (by norm_num) tail
  simpa [decodeStreamEx] using this

theorem encode_shape (n : Nat) :
    ∃ bs b, encode n = bs ++ [b] ∧ b &&& 0x80 = 0 ∧ ∀ x ∈ bs, x &&& 0x80 ≠ 0 := by
  induction n using Nat.strong_induction_on with
  | _ n ih =>
    have hsh : n >>> 7 = n / 128 := by
      rw [Nat.shiftRight_eq_div_pow]
    rw [encode_eq]
    by_cases h : n >>> 7 = 0
    · have hn : n < 128 := by omega
      refine ⟨[], n &&& 0x7f, by simp [h], ?_, by simp⟩
      rw [and_127_of_lt hn, and_128_of_lt hn]
    · obtain ⟨bs, b, heq, hlast, hinit⟩ := ih (n >>> 7) (by omega)
      refine ⟨(n &&& 0x7f ||| 0x80) :: bs, b, by simp [h, heq], hlast, ?_⟩
      intro x hx
      rcases List.mem_cons.mp hx with rfl | hx
      · exact contByte_and_128 n
      · exact hinit x hx

theorem encodeLoop_int_eq_encode :
    ∀ n fuel : Nat, n < fuel → encodeLoop fuel (n : Int) = some (encode n) := by
  intro n
  induction n using Nat.strong_induction_on with
  | _ n ih =>
    intro fuel hfuel
    cases fuel with
    | zero => omega
    | succ fuel =>
      have hemod : ((n : Int).emod 128).toNat = n &&& 0x7f := by
        rw [and_127_eq_mod]
        have h1 : (n : Int).emod 128 = (n : Int) % 128 := rfl
        rw [h1]
        omega
      have hfdiv : (n : Int).fdiv 128 = ((n / 128 : Nat) : Int) :=
        (Int.ofNat_fdiv n 128).symm
      have hsh : n >>> 7 = n / 128 := by
        rw [Nat.shiftRight_eq_div_pow]
      rw [encodeLoop, encode_eq]
      by_cases h : n >>> 7 = 0
      · have hz : (n : Int).fdiv 128 = 0 := by
          rw [hfdiv]
          have : n / 128 = 0 := by omega
          rw [this]; norm_num
        simp [hz, hemod, h]
      · have hne : ¬ (n : Int).fdiv 128 = 0 := by
          rw [hfdiv]
          simp only [ne_eq, Int.natCast_eq_zero]
          omega
        have hrec : encodeLoop fuel ((n / 128 : Nat) : Int) = some (encode (n / 128)) := by
          apply ih <;> omega
        simp only [hne, if_false, hfdiv, hrec, hemod]
        rw [if_neg (show ¬ ((n / 128 : Nat) : Int) = 0 by
          simp only [Int.natCast_eq_zero]; omega)]
        rw [if_neg h, hsh]

theorem encodeLoop_neg_none :
    ∀ (fuel : Nat) (z : Int), z < 0 → encodeLoop fuel z = none := by
  intro fuel
  induction fuel with
  | zero => intro z _; rfl
  | succ fuel ih =>
    intro z hz
    match z, hz with
    | .negSucc m, _ =>
      have hfdiv : (Int.negSucc m).fdiv 128 = Int.negSucc (m / 128) := rfl
      have hne : ¬ (Int.negSucc m).fdiv 128 = 0 := by rw [hfdiv]; exact Int.negSucc_ne_zero _
      rw [encodeLoop]
      simp only [hne, if_false, hfdiv, ih (Int.negSucc (m / 128)) (Int.negSucc_lt_zero _)]
      rw [if_neg (Int.negSucc_ne_zero _)]

end Varint

/-! ## Byte-string helpers

`BytesIO.read(k)` is total in Python: at end of input it returns the empty
byte string, never raising.  It is embedded as `List.take` / `List.drop`.
`int.from_bytes` of `b''` is `0`. -/

/-- Embedding of `int.from_bytes(chunk)` (big-endian default). -/
def beFromBytes (l : List Nat) : Nat := l.foldl (fun acc b => acc * 256 + b) 0

/-- Embedding of `int.from_bytes(chunk, byteorder='little')`. -/
def leFromBytes (l : List Nat) : Nat := l.foldr (fun b acc => b + 256 * acc) 0

/-- Embedding of `n.to_bytes(2, byteorder='little')` for `n ≤ 0xFFFF`. -/
def leBytes2 (n : Nat) : List Nat := [n % 256, (n >>> 8) % 256]

theorem leFromBytes_leBytes2 {n : Nat} (h : n ≤ 0xFFFF) :
    leFromBytes (leBytes2 n) = n := by
  have hsh : n >>> 8 = n / 256 := by rw [Nat.shiftRight_eq_div_pow]
  simp only [leBytes2, leFromBytes, List.foldr, hsh]
  omega

/-! ## Package codec, single-flag dialect (`celestorm/encoding/packaging.py`)

Instructions are abstract: the codec is parametrised by the instruction
type `α`, the application's serializer `ser` (`Instruction._serialize`) and
deserializer `deser` (the callable returned by `_instruction_deserializer`;
`none` models a raised deserialization error).  The `Signer` protocol of
`celestorm/encoding/protocols.py` is a record of `sign_size`, `sign` and
`verify`; Ed25519 itself is an external collaborator and stays opaque. -/

structure Signer where
  signSize : Nat
  sign : List Nat → List Nat
  verify : List Nat → List Nat → Bool

/-- Error classes raised by `Package.deserialize`: every constructor except
`cannotDeserialize` corresponds to one specific `raise` site; the message of
each site is recorded in the constructor name.  `wrongHeader` models
`DeserializeError("Wrong package header")`, `wrongVersion` models
`DeserializeError("Wrong package version")`, `wrongSize` models
`DeserializeError("Wrong package size")`, `wrongHash` and `wrongSignature`
model the two `VerifyError` sites, and `cannotDeserialize` models a
`DeserializeError` escaping the per-instruction deserializer. -/
inductive PkgError where
  | wrongHeader
  | wrongVersion
  | wrongSize
  | cannotDeserialize
  | wrongHash
  | wrongSignature
deriving DecidableEq, Repr

/-- One length-prefixed chunk of the package body:
`varint.encode(len(serialized)) + serialized`. -/
def chunkOf (serialized : List Nat) : List Nat :=
  Varint.encode serialized.length ++ serialized

/-- All body chunks of `Package.build` / `Package._create_from`, in order. -/
def chunksBytes {α : Type} (ser : α → List Nat) (instructions : List α) : List Nat :=
  instructions.flatMap (fun i => chunkOf (ser i))

/-- Embedding of `Package.build` (packaging.py) on an instruction list with
`len(instructions) ≤ 0xFFFF` and no per-instruction serialization failure.
The leading byte is `version | 0b10000000` when a signer is given, plain
`version` (= 1) otherwise; then the little-endian u16 count, the chunks, the
SHA-256 digest of everything hashed so far (header plus chunks), and the
signature of the digest when a signer is given. -/
def buildBytes {α : Type} (ser : α → List Nat) (instructions : List α)
    (signer : Option Signer) : List Nat :=
  let headByte : Nat := match signer with
    | some _ => 1 ||| 0b10000000
    | none => 1
  let header := headByte :: leBytes2 instructions.length
  let chunks := chunksBytes ser instructions
  let dg := sha256 (header ++ chunks)
  header ++ chunks ++ dg ++ (match signer with
    | some sg => sg.sign dg
    | none => [])

/-- Embedding of the `iter_` chunk loop of `Package.deserialize` (shared by
the body loop of `Package._serialized_instructions` in the dclscud dialect).
`count` is the header's instruction count, `stream` the unread rest of the
package and `fed` the bytes fed to the hasher so far.  `EOFError` from
`varint.decode_stream_ex` becomes `DeserializeError("Wrong package size")`;
a failing instruction deserializer propagates as a `DeserializeError`. -/
def chunksLoop {α : Type} (deser : List Nat → Option α) :
    Nat → List Nat → List Nat → Except PkgError (List α × List Nat × List Nat)
  | 0, stream, fed => .ok ([], fed, stream)
  | count + 1, stream, fed =>
    match Varint.decodeStreamEx stream with
    | none => .error .wrongSize
    | some (size, consumed, stream') =>
      let chunk := stream'.take size
      let stream'' := stream'.drop size
      match deser chunk with
      | none => .error .cannotDeserialize
      | some instr =>
        match chunksLoop deser count stream'' (fed ++ consumed ++ chunk) with
        | .error e => .error e
        | .ok (instrs, fed', rest) => .ok (instr :: instrs, fed', rest)

/-- Embedding of `Package.deserialize` (packaging.py), with the lazy
iterator fully consumed (as `Package.verify` and the execution layer do).
The header reads are total (`BytesIO.read` never raises), the version is the
low six bits (`& 0b0111111` = 63) of the first byte, the count is the
little-endian u16 at offset 1, then the chunk loop runs, the next 32 bytes
must equal the running SHA-256, and, if a signer is supplied, the following
`sign_size` bytes must be a valid signature of the stored digest. -/
def deserializeBytes {α : Type} (deser : List Nat → Option α)
    (signer : Option Signer) (pkg : List Nat) : Except PkgError (List α) :=
  let c1 := pkg.take 1
  let rest1 := pkg.drop 1
  if beFromBytes c1 &&& 0b0111111 ≠ 1 then .error .wrongVersion
  else
    let c2 := rest1.take 2
    let rest2 := rest1.drop 2
    match chunksLoop deser (leFromBytes c2) rest2 (c1 ++ c2) with
    | .error e => .error e
    | .ok (instrs, fed, rest3) =>
      let stored := rest3.take 32
      if stored ≠ sha256 fed then .error .wrongHash
      else
        match signer with
        | none => .ok instrs
        | some sg =>
          let sig := (rest3.drop 32).take sg.signSize
          if sig.length ≠ sg.signSize ∨ sg.verify stored sig = false then
            .error .wrongSignature
          else .ok instrs

/-- Embedding of `Package.verify` (packaging.py): materialise
`deserialize(hasher, signer)` into a list and return its truthiness,
with `DeserializeError` and `VerifyError` caught as `False`.  Every
`PkgError` constructor models one of those two classes, so every error
becomes `false`. -/
def verifyPackage {α : Type} (deser : List Nat → Option α) (pkg : List Nat)
    (sg : Signer) : Bool :=
  match deserializeBytes deser (some sg) pkg with
  | .ok instrs => !instrs.isEmpty
  | .error _ => false

/-! ## Package codec, two-flag dialect (`tests/dclscud/encoding/package.py`) -/

/-- Embedding of `Package._create_from`: header byte `version` (= 1), then
the little-endian u16 count, then the chunks; the hasher sees only the
chunks; finally the digest-present flag `0b01000000` is OR-ed into the first
byte and the digest appended, giving leading byte `1 ||| 64` = `0x41`. -/
def dclscudBuildBytes {α : Type} (ser : α → List Nat) (instructions : List α) :
    List Nat :=
  let chunks := chunksBytes ser instructions
  let dg := sha256 chunks
  ((1 : Nat) ||| 0b01000000) :: leBytes2 instructions.length ++ chunks ++ dg

/-- Embedding of `Package._serialized_instructions` composed with
`Package.deserialize` of `celestorm/encoding/__init__.py` (which maps
`_deserialize_instruction` over the yielded chunks and wraps its errors as
`DeserializeError`).  The version is the low six bits (`& 0b00111111`) of
the first byte; the hasher starts fresh after the header, so only the
chunks are hashed. -/
def dclscudDeserializeBytes {α : Type} (deser : List Nat → Option α)
    (pkg : List Nat) : Except PkgError (List α) :=
  let c1 := pkg.take 1
  if beFromBytes c1 &&& 0b00111111 ≠ 1 then .error .wrongVersion
  else
    let c2 := (pkg.drop 1).take 2
    let rest2 := (pkg.drop 1).drop 2
    match chunksLoop deser (leFromBytes c2) rest2 [] with
    | .error e => .error e
    | .ok (instrs, fed, rest3) =>
      if rest3.take 32 ≠ sha256 fed then .error .wrongHash
      else .ok instrs

/-- Embedding of the `digest` property of `celestorm/encoding/__init__.py`
with the `_get_digest_slice` of the dclscud package: when the digest flag
`0b01000000` is set, the digest starts 32 bytes from the end (64 more when
the signature flag `0b10000000` is also set); the property returns `None`
when the flag is clear or the computed position is negative. -/
def dclscudDigest (pkg : List Nat) : Option (List Nat) :=
  if pkg.headD 0 &&& 0b01000000 ≠ 0 then
    let adj := if pkg.headD 0 &&& 0b10000000 ≠ 0 then 64 else 0
    if 32 + adj ≤ pkg.length then
      some ((pkg.drop (pkg.length - 32 - adj)).take 32)
    else none
  else none

/-! ## Transacted storage and the execution layer

Embedding of `tests/dclscud/execution.py` (the concrete `Storage`) driven by
`celestorm/execution/__init__.py` (`Layer.start_sync`,
`Layer._execute_instruction`, `Layer._check_instruction`).  A Python dict
keyed by OID is embedded as an association list with unique keys; `oid`s are
an abstract type `K` with decidable equality and the dataclass values are
embedded through their `asdict` view, an attribute map `List (String × W)`
(the `astuple`/`asdict` conversions are a bijection for a fixed dataclass,
so the map view is the denotation of the stored tuple). -/

/-- Instruction payload as built by `Instruction.__init__`: the full entity
for `revision == 0`, a non-empty attribute dict for an UPDATE, `None` for a
DELETE. -/
inductive PayloadV (W : Type) where
  | entity (value : List (String × W))
  | attrs (data : List (String × W))
  | nothing
deriving DecidableEq, Repr

/-- Embedding of the sample `Instruction`: `(oid, revision, payload)`. -/
structure Instr (K W : Type) where
  oid : K
  revision : Nat
  payload : PayloadV W
deriving DecidableEq, Repr

/-- Embedding of the derived `Instruction.method` property. -/
inductive Method where
  | create
  | update
  | delete
deriving DecidableEq, Repr

def Instr.method {K W : Type} [DecidableEq W] (i : Instr K W) : Method :=
  if i.revision ≠ 0 then
    if i.payload ≠ PayloadV.nothing then .update else .delete
  else .create

/-- A Python dict `oid → (sync_round, value)` as an association list. -/
abbrev StorageState (K W : Type) := List (K × Nat × List (String × W))

variable {K W : Type}

/-- Lookup of `dict[oid]` / `dict.get(oid)`. -/
def getEntry [DecidableEq K] (st : StorageState K W) (k : K) :
    Option (Nat × List (String × W)) :=
  (st.find? (fun e => e.1 = k)).map Prod.snd

/-- Embedding of `Storage.get_revision_for`:
`self._storage.get(oid, (0, None))[0]`. -/
def getRevisionFor [DecidableEq K] (st : StorageState K W) (k : K) : Nat :=
  match getEntry st k with
  | some (r, _) => r
  | none => 0

/-- Setting `dict[oid] = v`: replace in place, or append a new key. -/
def setEntry [DecidableEq K] : StorageState K W → K → Nat × List (String × W) →
    StorageState K W
  | [], k, v => [(k, v)]
  | e :: t, k, v => if e.1 = k then (k, v) :: t else e :: setEntry t k v

/-- Embedding of `del dict[oid]`. -/
def delEntry [DecidableEq K] (st : StorageState K W) (k : K) : StorageState K W :=
  st.filter (fun e => ¬ e.1 = k)

/-- Embedding of `dict(asdict(old_state), **instruction.payload)`: the
attribute map updated key by key from the payload. -/
def setAttr [DecidableEq W] : List (String × W) → String → W → List (String × W)
  | [], k, v => [(k, v)]
  | e :: t, k, v => if e.1 = k then (k, v) :: t else e :: setAttr t k v

def dictUpdate [DecidableEq W] (old : List (String × W))
    (data : List (String × W)) : List (String × W) :=
  data.foldl (fun acc e => setAttr acc e.1 e.2) old

/-- Outcome of an instruction check.  `fatalSync` models the fatal class
(`SynchronizationError` in the execution layer, `ExecutionCritical` in the
storage finalizer), `lateDrop` models the non-fatal
`ExecutionError("Instruction was late")` that drops the round. -/
inductive CheckResult where
  | passed
  | fatalSync
  | lateDrop
deriving DecidableEq, Repr

/-- Embedding of `Layer._check_instruction`: the chained comparison
`0 < sync_round <= instruction.revision` raises `SynchronizationError`;
otherwise the storage revision of the oid is compared with the
instruction revision. -/
def checkInstruction [DecidableEq K] (storage : StorageState K W)
    (syncRound : Nat) (i : Instr K W) : CheckResult :=
  if 0 < syncRound ∧ syncRound ≤ i.revision then .fatalSync
  else
    let revision := getRevisionFor storage i.oid
    if revision < i.revision then .fatalSync
    else if revision > i.revision then .lateDrop
    else .passed

/-- Embedding of `Finalizer._check_instruction`
(`celestorm/storage/__init__.py`), as a function of the session revision for
the oid, the session sync round and the instruction revision. -/
def finalizerCheck (revision syncRound instrRevision : Nat) : CheckResult :=
  if instrRevision < syncRound then
    if revision = instrRevision then .passed
    else if revision < instrRevision then .fatalSync
    else .lateDrop
  else .fatalSync

/-- The validation table exactly as the specification states it. -/
def specCheck (revision syncRound instrRevision : Nat) : CheckResult :=
  if instrRevision ≥ syncRound then .fatalSync
  else if revision < instrRevision then .fatalSync
  else if revision > instrRevision then .lateDrop
  else .passed

/-- Errors of a sync round.  `finalError` models `FinalizationError`
(`Layer._execute_instruction` wraps any exception from
`finalize_instruction`), the other two model the check outcomes. -/
inductive RoundErr where
  | syncLost
  | wasLate
  | finalError
deriving DecidableEq, Repr

/-- Embedding of `Storage.finalize_instruction` (tests/dclscud): CREATE
stores `(sync_round, astuple(payload))`; UPDATE requires the oid in the
working copy with matching revision (a `KeyError` or failed `assert`
raises) and stores the merged value at `sync_round`; DELETE requires the
same and removes the entry.  `none` models a raised exception. -/
def finalizeInstruction [DecidableEq K] [DecidableEq W] (syncRound : Nat)
    (temp : StorageState K W) (i : Instr K W) : Option (StorageState K W) :=
  match i.method with
  | .create =>
    match i.payload with
    | .entity v => some (setEntry temp i.oid (syncRound, v))
    | _ => none
  | .update =>
    match getEntry temp i.oid, i.payload with
    | some (revision, args), .attrs data =>
      if revision = i.revision then
        some (setEntry temp i.oid (syncRound, dictUpdate args data))
      else none
    | _, _ => none
  | .delete =>
    match getEntry temp i.oid with
    | some (revision, _) =>
      if revision = i.revision then some (delEntry temp i.oid) else none
    | none => none

/-- Embedding of `Layer._execute_instruction`: check against the canonical
storage (`self._storage`), then finalize on the transaction's working copy;
an exception from finalization becomes a `FinalizationError`. -/
def execInstruction [DecidableEq K] [DecidableEq W] (canonical : StorageState K W)
    (temp : StorageState K W) (syncRound : Nat) (i : Instr K W) :
    Except RoundErr (StorageState K W) :=
  match checkInstruction canonical syncRound i with
  | .fatalSync => .error .syncLost
  | .lateDrop => .error .wasLate
  | .passed =>
    match finalizeInstruction syncRound temp i with
    | some temp' => .ok temp'
    | none => .error .finalError

/-- The instruction loop of a sync round: the working copy is threaded, the
canonical state is only read. -/
def roundSteps [DecidableEq K] [DecidableEq W] (canonical : StorageState K W)
    (syncRound : Nat) : List (Instr K W) → StorageState K W →
    Except RoundErr (StorageState K W)
  | [], temp => .ok temp
  | i :: rest, temp =>
    match execInstruction canonical temp syncRound i with
    | .error e => .error e
    | .ok temp' => roundSteps canonical syncRound rest temp'

/-- Embedding of `Storage.commit_transaction`: keys of the canonical dict
absent from the working copy are popped, then `dict.update(temp)` writes
every entry of the working copy in order. -/
def commitTransaction [DecidableEq K] (canonical temp : StorageState K W) :
    StorageState K W :=
  temp.foldl (fun acc e => setEntry acc e.1 e.2)
    (canonical.filter (fun e => (getEntry temp e.1).isSome))

/-- Embedding of one full sync round under `Layer.start_sync`:
`begin_transaction` copies the canonical state into the working copy; on
success `commit_transaction` runs; on any error `rollback_transaction`
discards the working copy (the canonical state is returned unchanged)
and the error is reported (`ExecutionError` is logged and the round
dropped, anything else propagates — either way the canonical state is the
rolled-back one). -/
def runRound [DecidableEq K] [DecidableEq W] (canonical : StorageState K W)
    (syncRound : Nat) (instructions : List (Instr K W)) :
    StorageState K W × Option RoundErr :=
  match roundSteps canonical syncRound instructions canonical with
  | .ok temp => (commitTransaction canonical temp, none)
  | .error e => (canonical, some e)

/-- Embedding of `Storage.round_accepted` (tests/dclscud and tests/impl):
the Python body is `bool(sync_round_ for ... if sync_round == sync_round_)`,
the truthiness of a *generator object*, which is `True` no matter what the
storage contains — the generator is never iterated. -/
def roundAccepted (st : StorageState K W) (syncRound : Nat) : Bool :=
  -- the storage and round arguments are dead: `bool` of a generator is `True`
  true

/-- Modelled from the spec: the intended reading of `round_accepted` —
"return true iff any stored object revision equals the given round"
(spec §4.6 and the open question of §9).  The source of `round_accepted`
evaluates a generator object for truthiness instead. -/
def roundAcceptedSpec [DecidableEq K] (st : StorageState K W) (syncRound : Nat) :
    Bool :=
  st.any (fun e => e.2.1 = syncRound)

/-! ## The DA receiver (`celestorm/celestia/transport.py`)

Embedding of `Connection.recv_packages`.  The header subscription is the
list of observed heights; `blob.get_all` is a function from a height to the
blobs at that height.  Each loop iteration with `from_height ≤ curr_height`
yields, for every height `h` in `from_height .. curr_height` with `h > 0`
and a non-empty blob list, the rounds `(h << 16) + blob.index` in blob
order, and then sets `from_height = curr_height + 1`. -/

structure Blob where
  index : Nat
  data : List Nat
deriving DecidableEq, Repr

def blobRound (h : Nat) (b : Blob) : Nat := (h <<< 16) + b.index

/-- The rounds yielded at one height: height `0` is skipped
(`if height > 0`); an empty blob list yields nothing either way. -/
def yieldsAt (blobs : Nat → List Blob) (h : Nat) : List Nat :=
  if 0 < h then (blobs h).map (blobRound h) else []

/-- Embedding of `for N in range(curr_height - from_height + 1)`. -/
def heightsRange (fromH curr : Nat) : List Nat :=
  (List.range (curr - fromH + 1)).map (fromH + ·)

/-- The receiver loop over the observed header heights.  The inner `while`
of the source runs exactly once per header when `from_height ≤ curr_height`
(it unconditionally sets `from_height = curr_height + 1`) and not at all
otherwise. -/
def recvLoop (blobs : Nat → List Blob) : Nat → List Nat → List Nat
  | _, [] => []
  | fromH, curr :: rest =>
    if fromH ≤ curr then
      ((heightsRange fromH curr).flatMap (yieldsAt blobs)) ++
        recvLoop blobs (curr + 1) rest
    else recvLoop blobs fromH rest

/-- The sync rounds yielded by `recv_packages(from_round, …)`:
`from_height = from_round >> 16`. -/
def recvRounds (blobs : Nat → List Blob) (fromRound : Nat)
    (headers : List Nat) : List Nat :=
  recvLoop blobs (fromRound >>> 16) headers

/-! ## Claim theorems -/

theorem chunksLoop_ne_wrongHeader {α : Type} (deser : List Nat → Option α) :
    ∀ (count : Nat) (stream fed : List Nat),
      chunksLoop deser count stream fed ≠ Except.error PkgError.wrongHeader := by
  intro count
  induction count with
  | zero =>
    intro stream fed h
    simp [chunksLoop] at h
  | succ n ih =>
    intro stream fed h
    rw [chunksLoop] at h
    rcases hv : Varint.decodeStreamEx stream with _ | ⟨size, consumed, stream'⟩ <;>
      rw [hv] at h
    · simp at h
    · simp only at h
      rcases hd : deser (stream'.take size) with _ | instr <;> rw [hd] at h
      · simp at h
      · rcases hc : chunksLoop deser n (stream'.drop size)
            (fed ++ consumed ++ stream'.take size) with e | ok <;> rw [hc] at h
        · simp only [Except.error.injEq] at h
          exact ih _ _ (h ▸ hc)
        · simp at h

/-- C9: for every input byte string, `Package.deserialize` never raises
`DeserializeError("Wrong package header")` — stream reads at end of input
return an empty byte string instead of raising `EOFError`, so the guarded
header parse cannot fail that way; in particular the empty byte string
fails with `DeserializeError("Wrong package version")`. -/
theorem deserialize_wrong_header_unreachable :
    (∀ (α : Type) (deser : List Nat → Option α) (signer : Option Signer)
      (pkg : List Nat),
        deserializeBytes deser signer pkg ≠ Except.error PkgError.wrongHeader) ∧
    deserializeBytes (fun b => some b) none ([] : List Nat) =
      Except.error PkgError.wrongVersion := by
  constructor
  · intro α deser signer pkg h
    rw [deserializeBytes] at h
    by_cases hv : beFromBytes (pkg.take 1) &&& 0b0111111 ≠ 1
    · rw [if_pos hv] at h
      simp at h
    · rw [if_neg hv] at h
      dsimp only at h
      rcases hc : chunksLoop deser (leFromBytes ((pkg.drop 1).take 2)) ((pkg.drop 1).drop 2)
          (pkg.take 1 ++ (pkg.drop 1).take 2) with e | ⟨instrs, fed, rest3⟩ <;>
        rw [hc] at h
      · simp only [Except.error.injEq] at h
        exact chunksLoop_ne_wrongHeader deser _ _ _ (h ▸ hc)
      · simp only at h
        by_cases hh : rest3.take 32 ≠ sha256 fed
        · rw [if_pos hh] at h; simp at h
        · rw [if_neg hh] at h
          cases signer with
          | none => simp at h
          | some sg =>
            simp only at h
            by_cases hs : ((rest3.drop 32).take sg.signSize).length ≠ sg.signSize ∨
                sg.verify (rest3.take 32) ((rest3.drop 32).take sg.signSize) = false
            · rw [if_pos hs] at h; simp at h
            · rw [if_neg hs] at h; simp at h
  · rfl

/-- C2: instruction validation before finalization follows the
specification's decision table for every sync round `r ≥ 1` (sync rounds of
this system start at 1): revision not in the past is fatal, a storage
revision below the instruction revision is fatal, a storage revision above
it drops the round as "Instruction was late", otherwise the check passes —
both for `Layer._check_instruction` and for `Finalizer._check_instruction`
(whose fatal class is `ExecutionCritical`). -/
theorem check_instruction_validation_table {K W : Type} [DecidableEq K]
    (storage : StorageState K W) (syncRound : Nat) (i : Instr K W)
    (sessionRevision : Nat) (h : 1 ≤ syncRound) :
    checkInstruction storage syncRound i =
      specCheck (getRevisionFor storage i.oid) syncRound i.revision ∧
    finalizerCheck sessionRevision syncRound i.revision =
      specCheck sessionRevision syncRound i.revision := by
  constructor
  · unfold checkInstruction specCheck
    dsimp only
    split_ifs <;> first | rfl | omega
  · unfold finalizerCheck specCheck
    split_ifs <;> first | rfl | omega

theorem check_instruction_validation_table_witness :
    checkInstruction ([] : StorageState Nat Nat) 5 ⟨0, 3, PayloadV.nothing⟩ =
      specCheck (getRevisionFor ([] : StorageState Nat Nat) 0) 5 3 ∧
    finalizerCheck 2 5 3 = specCheck 2 5 3 :=
  check_instruction_validation_table ([] : StorageState Nat Nat) 5
    ⟨0, 3, PayloadV.nothing⟩ 2 (by decide)

/-- C3: atomicity of a sync round — whenever any instruction of the round
fails (validation or finalization), the canonical storage state returned at
the end of the round equals the state at the round's start; all writes went
to the working copy, which rollback discards. -/
theorem round_atomic {K W : Type} [DecidableEq K] [DecidableEq W]
    (canonical : StorageState K W) (syncRound : Nat)
    (instructions : List (Instr K W)) (e : RoundErr)
    (h : (runRound canonical syncRound instructions).2 = some e) :
    (runRound canonical syncRound instructions).1 = canonical := by
  unfold runRound at h ⊢
  cases hr : roundSteps canonical syncRound instructions canonical <;>
    simp [hr] at h ⊢

theorem round_atomic_witness :
    (runRound ([] : StorageState Nat Nat) 1 [⟨0, 1, PayloadV.nothing⟩]).2 =
      some RoundErr.syncLost ∧
    (runRound ([] : StorageState Nat Nat) 1 [⟨0, 1, PayloadV.nothing⟩]).1 = [] :=
  ⟨by decide,
   round_atomic ([] : StorageState Nat Nat) 1 [⟨0, 1, PayloadV.nothing⟩]
     RoundErr.syncLost (by decide)⟩

/-- C6: the claim states `round_accepted(r)` is true iff some stored object
revision equals `r`; the code returns the truthiness of a generator object,
which is `True` unconditionally — here evaluated on an empty storage with
round 1, where the intended reading is `false` but the code yields `true`. -/
theorem round_accepted_always_true :
    roundAccepted ([] : StorageState Nat Nat) 1 = true ∧
    roundAcceptedSpec ([] : StorageState Nat Nat) 1 = false := by
  constructor <;> rfl

/-- C10: `varint.encode(n)` terminates for every `n ≥ 0` (the fuelled loop
with `n + 1` iterations of fuel reaches the exit and agrees with the total
function `encode`), `encode n` is non-empty and exactly its final byte has
the continuation bit `0x80` clear; for negative input the loop never exits,
whatever the fuel. -/
theorem varint_encode_terminates_nonneg_only :
    (∀ n : Nat, Varint.encodeLoop (n + 1) (n : Int) = some (Varint.encode n) ∧
      ∃ bs b, Varint.encode n = bs ++ [b] ∧ b &&& 0x80 = 0 ∧
        ∀ x ∈ bs, x &&& 0x80 ≠ 0) ∧
    (∀ z : Int, z < 0 → ∀ fuel : Nat, Varint.encodeLoop fuel z = none) := by
  constructor
  · intro n
    exact ⟨Varint.encodeLoop_int_eq_encode n (n + 1) (Nat.lt_succ_self n),
      Varint.encode_shape n⟩
  · intro z hz fuel
    exact Varint.encodeLoop_neg_none fuel z hz

theorem varint_encode_terminates_nonneg_only_witness :
    Varint.encodeLoop 301 ((300 : Nat) : Int) = some (Varint.encode 300) ∧
    ((-5 : Int) < 0 ∧ Varint.encodeLoop 7 (-5 : Int) = none) :=
  ⟨(varint_encode_terminates_nonneg_only.1 300).1,
   by decide,
   varint_encode_terminates_nonneg_only.2 (-5 : Int) (by decide) 7⟩

theorem chunksLoop_chunksBytes {α : Type} (ser : α → List Nat)
    (deser : List Nat → Option α) :
    ∀ (I : List α), (∀ i ∈ I, deser (ser i) = some i) →
    ∀ (tail fed : List Nat),
      chunksLoop deser I.length (chunksBytes ser I ++ tail) fed =
        Except.ok (I, fed ++ chunksBytes ser I, tail) := by
  intro I
  induction I with
  | nil =>
    intro _ tail fed
    simp [chunksBytes, chunksLoop]
  | cons i rest ih =>
    intro hI tail fed
    have hser : deser (ser i) = some i := hI i (List.mem_cons_self i rest)
    have hrest : ∀ j ∈ rest, deser (ser j) = some j :=
      fun j hj => hI j (List.mem_cons_of_mem i hj)
    have hsplit : chunksBytes ser (i :: rest) ++ tail =
        Varint.encode (ser i).length ++
          (ser i ++ (chunksBytes ser rest ++ tail)) := by
      simp [chunksBytes, chunkOf, List.append_assoc]
    rw [List.length_cons, chunksLoop, hsplit, Varint.decodeStreamEx_encode_append]
    dsimp only
    rw [List.take_left, List.drop_left, hser]
    rw [ih hrest tail (fed ++ Varint.encode (ser i).length ++ ser i)]
    simp [chunksBytes, chunkOf, List.append_assoc]

/-- C1: round trip — for every list of serializable instructions of length
at most 65535, building a package and deserializing it yields exactly the
original instructions, in order, in both framing dialects (the single-flag
dialect of packaging.py and the two-flag dclscud dialect). -/
theorem package_round_trip {α : Type} (ser : α → List Nat)
    (deser : List Nat → Option α) (I : List α)
    (hlen : I.length ≤ 65535) (hser : ∀ i ∈ I, deser (ser i) = some i) :
    deserializeBytes deser none (buildBytes ser I none) = Except.ok I ∧
    dclscudDeserializeBytes deser (dclscudBuildBytes ser I) = Except.ok I := by
  constructor
  · rw [deserializeBytes, buildBytes]
    dsimp only
    rw [show ((1 : Nat) :: leBytes2 I.length ++ chunksBytes ser I ++
        sha256 ((1 : Nat) :: leBytes2 I.length ++ chunksBytes ser I) ++ []) =
        (1 : Nat) :: (leBytes2 I.length ++ (chunksBytes ser I ++
          sha256 ((1 : Nat) :: leBytes2 I.length ++ chunksBytes ser I))) from by
      simp [List.append_assoc]]
    rw [show List.take 1 ((1 : Nat) :: (leBytes2 I.length ++ (chunksBytes ser I ++
        sha256 ((1 : Nat) :: leBytes2 I.length ++ chunksBytes ser I)))) = [1] from rfl]
    rw [show List.drop 1 ((1 : Nat) :: (leBytes2 I.length ++ (chunksBytes ser I ++
        sha256 ((1 : Nat) :: leBytes2 I.length ++ chunksBytes ser I)))) =
        leBytes2 I.length ++ (chunksBytes ser I ++
          sha256 ((1 : Nat) :: leBytes2 I.length ++ chunksBytes ser I)) from rfl]
    rw [if_neg (by norm_num [beFromBytes])]
    rw [show (leBytes2 I.length ++ (chunksBytes ser I ++
        sha256 ((1 : Nat) :: leBytes2 I.length ++ chunksBytes ser I))).take 2 =
        leBytes2 I.length from by simp [leBytes2]]
    rw [show (leBytes2 I.length ++ (chunksBytes ser I ++
        sha256 ((1 : Nat) :: leBytes2 I.length ++ chunksBytes ser I))).drop 2 =
        chunksBytes ser I ++
          sha256 ((1 : Nat) :: leBytes2 I.length ++ chunksBytes ser I) from by
      simp [leBytes2]]
    rw [leFromBytes_leBytes2 hlen]
    rw [chunksLoop_chunksBytes ser deser I hser]
    dsimp only
    have h32 := sha256_length ((1 : Nat) :: leBytes2 I.length ++ chunksBytes ser I)
    rw [show (sha256 ((1 : Nat) :: leBytes2 I.length ++ chunksBytes ser I)).take 32 =
        sha256 ((1 : Nat) :: leBytes2 I.length ++ chunksBytes ser I) from by
      conv_lhs => rw [← h32]
      exact List.take_length _]
    rw [if_neg (by simp [List.append_assoc])]
  · rw [dclscudDeserializeBytes, dclscudBuildBytes]
    dsimp only
    rw [show (((1 : Nat) ||| 64) :: leBytes2 I.length ++ chunksBytes ser I ++
        sha256 (chunksBytes ser I)) =
        (65 : Nat) :: (leBytes2 I.length ++ (chunksBytes ser I ++
          sha256 (chunksBytes ser I))) from by simp [List.append_assoc]]
    rw [show List.take 1 ((65 : Nat) :: (leBytes2 I.length ++ (chunksBytes ser I ++
        sha256 (chunksBytes ser I)))) = [65] from rfl]
    rw [if_neg (by decide)]
    rw [show List.drop 1 ((65 : Nat) :: (leBytes2 I.length ++ (chunksBytes ser I ++
        sha256 (chunksBytes ser I)))) =
        leBytes2 I.length ++ (chunksBytes ser I ++ sha256 (chunksBytes ser I)) from rfl]
    rw [show (leBytes2 I.length ++ (chunksBytes ser I ++
        sha256 (chunksBytes ser I))).take 2 = leBytes2 I.length from by simp [leBytes2]]
    rw [show (leBytes2 I.length ++ (chunksBytes ser I ++
        sha256 (chunksBytes ser I))).drop 2 =
        chunksBytes ser I ++ sha256 (chunksBytes ser I) from by simp [leBytes2]]
    rw [leFromBytes_leBytes2 hlen]
    rw [chunksLoop_chunksBytes ser deser I hser]
    dsimp only
    have h32 := sha256_length (chunksBytes ser I)
    rw [show (sha256 (chunksBytes ser I)).take 32 = sha256 (chunksBytes ser I) from by
      conv_lhs => rw [← h32]
      exact List.take_length _]
    rw [if_neg (by simp)]

theorem package_round_trip_witness :
    deserializeBytes (fun b => some b) none
        (buildBytes (fun b => b) [[1, 2, 3], [4]] none) =
      Except.ok [[1, 2, 3], [4]] ∧
    dclscudDeserializeBytes (fun b => some b)
        (dclscudBuildBytes (fun b => b) [[1, 2, 3], [4]]) =
      Except.ok [[1, 2, 3], [4]] :=
  package_round_trip (fun b => b) (fun b => some b) [[1, 2, 3], [4]]
    (by decide) (by decide)

/-- C5 counterexample: the two-flag dialect builds packages with the digest
flag set whose stored digest is SHA-256 over the chunks only — for the
empty instruction list the stored digest is `sha256(b"")`, not SHA-256 of
the header+body region (the three header bytes `41 00 00`). -/
theorem dclscud_digest_not_over_header :
    dclscudDigest (dclscudBuildBytes (fun x : Nat => [x]) ([] : List Nat)) ≠
      some (sha256
        ((dclscudBuildBytes (fun x : Nat => [x]) ([] : List Nat)).take 3)) := by
  decide

/-- C5 amended: in the single-flag dialect (packaging.py) the 32 bytes
following the chunks equal SHA-256 over the header+body region (flags byte,
count, chunks); in the two-flag dialect (dclscud, digest flag set) the
stored digest equals SHA-256 over the chunks only. -/
theorem digest_regions {α : Type} (ser : α → List Nat) (I : List α)
    (hlen : I.length ≤ 65535) :
    ((buildBytes ser I none).drop (3 + (chunksBytes ser I).length)).take 32 =
      sha256 ((buildBytes ser I none).take (3 + (chunksBytes ser I).length)) ∧
    dclscudDigest (dclscudBuildBytes ser I) =
      some (sha256 (chunksBytes ser I)) := by
  have hd32 := sha256_length ((1 : Nat) :: leBytes2 I.length ++ chunksBytes ser I)
  have hc32 := sha256_length (chunksBytes ser I)
  constructor
  · rw [buildBytes]
    rw [show ((1 : Nat) :: leBytes2 I.length ++ chunksBytes ser I ++
        sha256 ((1 : Nat) :: leBytes2 I.length ++ chunksBytes ser I) ++ []) =
        ((1 : Nat) :: leBytes2 I.length ++ chunksBytes ser I) ++
          sha256 ((1 : Nat) :: leBytes2 I.length ++ chunksBytes ser I) from by
      simp [List.append_assoc]]
    have hlen3 : ((1 : Nat) :: leBytes2 I.length ++ chunksBytes ser I).length =
        3 + (chunksBytes ser I).length := by
      simp [leBytes2]
      omega
    rw [List.drop_left' hlen3, List.take_left' hlen3]
    conv_lhs => rw [← hd32]
    exact List.take_length _
  · have hlenpkg : (((1 : Nat) ||| 64) :: leBytes2 I.length ++ chunksBytes ser I ++
        sha256 (chunksBytes ser I)).length = 35 + (chunksBytes ser I).length := by
      simp [leBytes2, hc32]
      omega
    rw [dclscudBuildBytes, dclscudDigest]
    dsimp only
    rw [show ((((1 : Nat) ||| 64) :: leBytes2 I.length ++ chunksBytes ser I ++
        sha256 (chunksBytes ser I))).headD 0 = 65 from rfl]
    rw [if_pos (show (65 : Nat) &&& 0b01000000 ≠ 0 from by decide)]
    rw [show (if (65 : Nat) &&& 0b10000000 ≠ 0 then (64 : Nat) else 0) = 0 from by decide]
    rw [if_pos (show 32 + 0 ≤ (((1 : Nat) ||| 64) :: leBytes2 I.length ++
        chunksBytes ser I ++ sha256 (chunksBytes ser I)).length from by
      rw [hlenpkg]; omega)]
    rw [hlenpkg]
    have hpos : 35 + (chunksBytes ser I).length - 32 - 0 =
        3 + (chunksBytes ser I).length := by omega
    rw [hpos]
    rw [show (((1 : Nat) ||| 64) :: leBytes2 I.length ++ chunksBytes ser I ++
        sha256 (chunksBytes ser I)) =
        (((1 : Nat) ||| 64) :: leBytes2 I.length ++ chunksBytes ser I) ++
          sha256 (chunksBytes ser I) from by simp [List.append_assoc]]
    have hlen3 : (((1 : Nat) ||| 64) :: leBytes2 I.length ++ chunksBytes ser I).length =
        3 + (chunksBytes ser I).length := by
      simp [leBytes2]
      omega
    rw [List.drop_left' hlen3]
    conv_lhs => rw [← hc32]
    rw [List.take_length]

theorem digest_regions_witness :
    (((buildBytes (fun x : Nat => [x]) [7] none).drop
        (3 + (chunksBytes (fun x : Nat => [x]) [7]).length)).take 32 =
      sha256 ((buildBytes (fun x : Nat => [x]) [7] none).take
        (3 + (chunksBytes (fun x : Nat => [x]) [7]).length))) ∧
    dclscudDigest (dclscudBuildBytes (fun x : Nat => [x]) [7]) =
      some (sha256 (chunksBytes (fun x : Nat => [x]) [7])) :=
  digest_regions (fun x : Nat => [x]) [7] (by decide)

/-- C7 amended: `Package.verify` returns true iff deserialization with the
verifying signer succeeds entirely — version, chunk count, digest and
signature checks all pass — and the package contains at least one
instruction; it is not equivalent to the signature check alone. -/
theorem verify_iff_deserialize_ok_nonempty {α : Type} (deser : List Nat → Option α)
    (pkg : List Nat) (sg : Signer) :
    verifyPackage deser pkg sg = true ↔
      ∃ instrs, deserializeBytes deser (some sg) pkg = Except.ok instrs ∧
        instrs ≠ [] := by
  unfold verifyPackage
  cases h : deserializeBytes deser (some sg) pkg with
  | ok instrs =>
    constructor
    · intro hne
      refine ⟨instrs, rfl, fun hnil => ?_⟩
      rw [hnil] at hne
      simp at hne
    · rintro ⟨instrs', heq, hne⟩
      injection heq with heq2
      subst heq2
      cases instrs with
      | nil => exact absurd rfl hne
      | cons a t => rfl
  | error e => simp

/-- A concrete signer with the `Signer` protocol shape (`sign_size`,
`sign`, `verify`), used to exhibit packages on which the claimed
equivalence fails; the codec treats the signature scheme as opaque. -/
def toySigner : Signer :=
  ⟨64, fun dg => dg ++ dg, fun dg s => s == dg ++ dg⟩

/-- C7 counterexample: for the signed package built from the empty
instruction list, the stored signature is valid over the stored digest
(the right-hand side of the claimed equivalence holds), yet
`Package.verify` returns false — `bool([])` of the materialised empty
instruction list. -/
theorem verify_false_on_empty_signed_package :
    toySigner.verify
        (((buildBytes (fun x : Nat => [x]) ([] : List Nat)
            (some toySigner)).drop 3).take 32)
        ((buildBytes (fun x : Nat => [x]) ([] : List Nat)
            (some toySigner)).drop 35) = true ∧
    verifyPackage (fun _ => some (0 : Nat))
        (buildBytes (fun x : Nat => [x]) ([] : List Nat) (some toySigner))
        toySigner = false := by
  decide

/-! ### Association-list lemmas for the storage model -/

/-- Uniqueness of dict keys: pairwise distinct. -/
def KeysNodup {K W : Type} (st : StorageState K W) : Prop :=
  st.Pairwise (fun a b => a.1 ≠ b.1)

theorem getEntry_cons_self {K W : Type} [DecidableEq K]
    (e : K × Nat × List (String × W)) (t : StorageState K W) (k : K)
    (h : e.1 = k) : getEntry (e :: t) k = some e.2 := by
  simp [getEntry, List.find?, h]

theorem getEntry_cons_ne {K W : Type} [DecidableEq K]
    (e : K × Nat × List (String × W)) (t : StorageState K W) (k : K)
    (h : ¬ e.1 = k) : getEntry (e :: t) k = getEntry t k := by
  simp [getEntry, List.find?, h]

theorem getEntry_setEntry_self {K W : Type} [DecidableEq K]
    (st : StorageState K W) (k : K) (v : Nat × List (String × W)) :
    getEntry (setEntry st k v) k = some v := by
  induction st with
  | nil => simp [setEntry, getEntry, List.find?]
  | cons e t ih =>
    rw [setEntry]
    by_cases he : e.1 = k
    · rw [if_pos he]
      exact getEntry_cons_self _ _ _ rfl
    · rw [if_neg he]
      rw [getEntry_cons_ne _ _ _ he]
      exact ih

theorem getEntry_setEntry_ne {K W : Type} [DecidableEq K]
    (st : StorageState K W) (k k' : K) (v : Nat × List (String × W))
    (h : k' ≠ k) : getEntry (setEntry st k v) k' = getEntry st k' := by
  have hkk : ¬ ((k, v).1 = k') := fun hq => h hq.symm
  induction st with
  | nil =>
    rw [setEntry, getEntry_cons_ne _ _ _ hkk]
  | cons e t ih =>
    rw [setEntry]
    by_cases he : e.1 = k
    · rw [if_pos he]
      have h2 : ¬ (e.1 = k') := fun hq => h (by rw [← hq]; exact he)
      rw [getEntry_cons_ne _ _ _ hkk, getEntry_cons_ne _ _ _ h2]
    · rw [if_neg he]
      by_cases hk : e.1 = k'
      · rw [getEntry_cons_self _ _ _ hk, getEntry_cons_self _ _ _ hk]
      · rw [getEntry_cons_ne _ _ _ hk, getEntry_cons_ne _ _ _ hk]
        exact ih

theorem getEntry_delEntry_self {K W : Type} [DecidableEq K]
    (st : StorageState K W) (k : K) : getEntry (delEntry st k) k = none := by
  rw [getEntry]
  rw [List.find?_eq_none.mpr]
  · rfl
  · intro e he
    have := List.of_mem_filter he
    simpa using this

theorem getEntry_delEntry_ne {K W : Type} [DecidableEq K]
    (st : StorageState K W) (k k' : K) (h : k' ≠ k) :
    getEntry (delEntry st k) k' = getEntry st k' := by
  induction st with
  | nil => simp [delEntry, getEntry]
  | cons e t ih =>
    rw [delEntry, List.filter_cons]
    by_cases he : e.1 = k
    · rw [if_neg (by simp [he])]
      have h2 : ¬ (e.1 = k') := fun hq => h (by rw [← hq]; exact he)
      rw [getEntry_cons_ne _ _ _ h2]
      exact ih
    · rw [if_pos (by simp [he])]
      by_cases hk : e.1 = k'
      · rw [getEntry_cons_self _ _ _ hk, getEntry_cons_self _ _ _ hk]
      · rw [getEntry_cons_ne _ _ _ hk, getEntry_cons_ne _ _ _ hk]
        exact ih

theorem mem_setEntry {K W : Type} [DecidableEq K]
    (st : StorageState K W) (k : K) (v : Nat × List (String × W)) :
    ∀ b ∈ setEntry st k v, b.1 = k ∨ b ∈ st := by
  induction st with
  | nil =>
    intro b hb
    rw [setEntry] at hb
    rcases List.mem_cons.mp hb with rfl | hb
    · exact Or.inl rfl
    · simp at hb
  | cons e t ih =>
    intro b hb
    rw [setEntry] at hb
    by_cases he : e.1 = k
    · rw [if_pos he] at hb
      rcases List.mem_cons.mp hb with rfl | hb
      · exact Or.inl rfl
      · exact Or.inr (List.mem_cons_of_mem _ hb)
    · rw [if_neg he] at hb
      rcases List.mem_cons.mp hb with rfl | hb
      · exact Or.inr (List.mem_cons_self _ _)
      · rcases ih b hb with h1 | h1
        · exact Or.inl h1
        · exact Or.inr (List.mem_cons_of_mem _ h1)

theorem keysNodup_setEntry {K W : Type} [DecidableEq K]
    (st : StorageState K W) (k : K) (v : Nat × List (String × W))
    (h : KeysNodup st) : KeysNodup (setEntry st k v) := by
  induction st with
  | nil =>
    rw [setEntry, KeysNodup, List.pairwise_cons]
    exact ⟨by simp, List.Pairwise.nil⟩
  | cons e t ih =>
    rw [KeysNodup, List.pairwise_cons] at h
    obtain ⟨he, ht⟩ := h
    rw [setEntry]
    by_cases heq : e.1 = k
    · rw [if_pos heq]
      rw [KeysNodup, List.pairwise_cons]
      exact ⟨fun b hb => heq ▸ he b hb, ht⟩
    · rw [if_neg heq]
      rw [KeysNodup, List.pairwise_cons]
      constructor
      · intro b hb
        rcases mem_setEntry t k v b hb with h1 | h1
        · rw [h1]; exact heq
        · exact he b h1
      · exact ih ht

theorem keysNodup_delEntry {K W : Type} [DecidableEq K]
    (st : StorageState K W) (k : K) (h : KeysNodup st) :
    KeysNodup (delEntry st k) :=
  List.Pairwise.sublist (List.filter_sublist st) h

theorem getEntry_eq_none_of_forall {K W : Type} [DecidableEq K]
    (st : StorageState K W) (k : K) (h : ∀ e ∈ st, e.1 ≠ k) :
    getEntry st k = none := by
  rw [getEntry]
  rw [List.find?_eq_none.mpr]
  · rfl
  · intro e he
    simpa using h e he

theorem getEntry_mem {K W : Type} [DecidableEq K]
    {st : StorageState K W} {k : K} {v : Nat × List (String × W)}
    (h : getEntry st k = some v) : (k, v) ∈ st := by
  rw [getEntry] at h
  rcases Option.map_eq_some'.mp h with ⟨e, he, hev⟩
  have hmem := List.mem_of_find?_eq_some he
  have hkey := List.find?_some he
  simp only [decide_eq_true_eq] at hkey
  have heq : e = (k, v) := by
    cases e
    simp only [Prod.mk.injEq]
    exact ⟨hkey, hev⟩
  exact heq ▸ hmem

theorem getEntry_foldl_setEntry {K W : Type} [DecidableEq K] :
    ∀ (t : StorageState K W), KeysNodup t → ∀ (acc : StorageState K W) (k : K),
      getEntry (t.foldl (fun a e => setEntry a e.1 e.2) acc) k =
        match getEntry t k with
        | some v => some v
        | none => getEntry acc k := by
  intro t
  induction t with
  | nil => intro _ acc k; simp [getEntry]
  | cons e0 t' ih =>
    intro hnd acc k
    rw [KeysNodup, List.pairwise_cons] at hnd
    obtain ⟨hk0, hnd'⟩ := hnd
    rw [List.foldl_cons, ih hnd']
    by_cases hk : e0.1 = k
    · have hnone : getEntry t' k = none :=
        getEntry_eq_none_of_forall t' k
          (fun e he hek => hk0 e he (by rw [hk]; exact hek.symm))
    
      rw [hnone, getEntry_cons_self e0 t' k hk]
      dsimp only
      rw [show setEntry acc e0.1 e0.2 = setEntry acc k e0.2 from by rw [hk]]
      exact getEntry_setEntry_self acc k e0.2
    · rw [getEntry_cons_ne e0 t' k hk]
      cases ht : getEntry t' k with
      | some v => rfl
      | none =>
        dsimp only
        exact getEntry_setEntry_ne acc e0.1 k e0.2 (fun hq => hk hq.symm)

theorem getEntry_commit {K W : Type} [DecidableEq K]
    (canonical temp : StorageState K W) (hnd : KeysNodup temp) (k : K) :
    getEntry (commitTransaction canonical temp) k = getEntry temp k := by
  rw [commitTransaction, getEntry_foldl_setEntry temp hnd]
  cases ht : getEntry temp k with
  | some v => rfl
  | none =>
    dsimp only
    apply getEntry_eq_none_of_forall
    intro e he hk
    have hp := List.of_mem_filter he
    rw [hk, ht] at hp
    simp at hp

theorem finalize_inv {K W : Type} [DecidableEq K] [DecidableEq W]
    (st0 : StorageState K W) (R : Nat) (temp temp' : StorageState K W)
    (i : Instr K W)
    (hfin : finalizeInstruction R temp i = some temp')
    (hnd : KeysNodup temp)
    (hinv : ∀ k rv m, getEntry temp k = some (rv, m) →
      getEntry st0 k = some (rv, m) ∨ rv = R) :
    KeysNodup temp' ∧ ∀ k rv m, getEntry temp' k = some (rv, m) →
      getEntry st0 k = some (rv, m) ∨ rv = R := by
  rw [finalizeInstruction] at hfin
  cases hm : i.method <;> rw [hm] at hfin
  case create =>
    cases hp : i.payload <;> rw [hp] at hfin
    case entity v =>
      injection hfin with hfin
      subst hfin
      refine ⟨keysNodup_setEntry _ _ _ hnd, ?_⟩
      intro k rv m hget
      by_cases hk : k = i.oid
      · subst hk
        rw [getEntry_setEntry_self] at hget
        injection hget with hpair
        exact Or.inr (congrArg Prod.fst hpair).symm
      · rw [getEntry_setEntry_ne _ _ _ _ hk] at hget
        exact hinv k rv m hget
    case attrs data => cases hfin
    case nothing => cases hfin
  case update =>
    rcases hg : getEntry temp i.oid with _ | ⟨rev, args⟩ <;> rw [hg] at hfin
    · cases hp : i.payload <;> rw [hp] at hfin <;> cases hfin
    · cases hp : i.payload <;> rw [hp] at hfin
      case entity v => cases hfin
      case nothing => cases hfin
      case attrs data =>
        dsimp only at hfin
        by_cases hrev : rev = i.revision
        · rw [if_pos hrev] at hfin
          injection hfin with hfin
          subst hfin
          refine ⟨keysNodup_setEntry _ _ _ hnd, ?_⟩
          intro k rv m hget
          by_cases hk : k = i.oid
          · subst hk
            rw [getEntry_setEntry_self] at hget
            injection hget with hpair
            exact Or.inr (congrArg Prod.fst hpair).symm
          · rw [getEntry_setEntry_ne _ _ _ _ hk] at hget
            exact hinv k rv m hget
        · rw [if_neg hrev] at hfin
          cases hfin
  case delete =>
    rcases hg : getEntry temp i.oid with _ | ⟨rev, args⟩ <;> rw [hg] at hfin
    · cases hfin
    · dsimp only at hfin
      by_cases hrev : rev = i.revision
      · rw [if_pos hrev] at hfin
        injection hfin with hfin
        subst hfin
        refine ⟨keysNodup_delEntry _ _ hnd, ?_⟩
        intro k rv m hget
        by_cases hk : k = i.oid
        · subst hk
          rw [getEntry_delEntry_self] at hget
          cases hget
        · rw [getEntry_delEntry_ne _ _ _ hk] at hget
          exact hinv k rv m hget
      · rw [if_neg hrev] at hfin
        cases hfin

theorem roundSteps_inv {K W : Type} [DecidableEq K] [DecidableEq W]
    (canonical st0 : StorageState K W) (R : Nat) :
    ∀ (instructions : List (Instr K W)) (temp temp' : StorageState K W),
      roundSteps canonical R instructions temp = Except.ok temp' →
      KeysNodup temp →
      (∀ k rv m, getEntry temp k = some (rv, m) →
        getEntry st0 k = some (rv, m) ∨ rv = R) →
      KeysNodup temp' ∧ ∀ k rv m, getEntry temp' k = some (rv, m) →
        getEntry st0 k = some (rv, m) ∨ rv = R := by
  intro instructions
  induction instructions with
  | nil =>
    intro temp temp' hrun hnd hinv
    rw [roundSteps] at hrun
    injection hrun with hrun
    subst hrun
    exact ⟨hnd, hinv⟩
  | cons i rest ih =>
    intro temp temp' hrun hnd hinv
    rw [roundSteps] at hrun
    cases he : execInstruction canonical temp R i <;> rw [he] at hrun
    · cases hrun
    case ok temp1 =>
      rw [execInstruction] at he
      cases hc : checkInstruction canonical R i <;> rw [hc] at he
      case fatalSync => cases he
      case lateDrop => cases he
      case passed =>
        cases hf : finalizeInstruction R temp i <;> rw [hf] at he
        · cases he
        case some temp2 =>
          injection he with he
          subst he
          obtain ⟨hnd1, hinv1⟩ := finalize_inv st0 R temp _ i hf hnd hinv
          exact ih _ temp' hrun hnd1 hinv1

/-- C4: revision monotonicity — if every revision in the canonical state is
at most `R` when round `R` starts, then after the round commits every entry
present has revision at most `R`, and every entry that differs from its
pre-round state (was created or updated during the round) has revision
exactly `R`. -/
theorem revision_monotonic {K W : Type} [DecidableEq K] [DecidableEq W]
    (canonical : StorageState K W) (R : Nat) (instructions : List (Instr K W))
    (st' : StorageState K W)
    (hrun : runRound canonical R instructions = (st', none))
    (hnd : KeysNodup canonical)
    (hrev : ∀ e ∈ canonical, e.2.1 ≤ R) :
    ∀ k rv m, getEntry st' k = some (rv, m) →
      rv ≤ R ∧ (getEntry canonical k = some (rv, m) ∨ rv = R) := by
  rw [runRound] at hrun
  cases hr : roundSteps canonical R instructions canonical <;> rw [hr] at hrun
  · cases hrun
  case ok temp =>
    injection hrun with h1 _
    subst h1
    have hinv0 : ∀ k rv m, getEntry canonical k = some (rv, m) →
        getEntry canonical k = some (rv, m) ∨ rv = R := fun k rv m h => Or.inl h
    obtain ⟨hndt, hinvt⟩ := roundSteps_inv canonical canonical R instructions
      canonical temp hr hnd hinv0
    intro k rv m hget
    rw [getEntry_commit canonical temp hndt] at hget
    have hdisj := hinvt k rv m hget
    refine ⟨?_, hdisj⟩
    rcases hdisj with hcan | hR
    · have hmem := getEntry_mem hcan
      have := hrev (k, rv, m) hmem
      simpa using this
    · omega

theorem revision_monotonic_witness :
    2 ≤ 2 ∧
    (getEntry [((0 : Nat), 1, [("x", (0 : Nat))])] 0 = some (2, [("x", 5)]) ∨
      (2 : Nat) = 2) :=
  revision_monotonic [((0 : Nat), 1, [("x", (0 : Nat))])] 2
    [⟨0, 1, PayloadV.attrs [("x", 5)]⟩] [(0, 2, [("x", 5)])]
    (by decide) (by simp [KeysNodup]) (by decide) 0 2 [("x", 5)] (by decide)

theorem mem_yieldsAt_bounds {blobs : Nat → List Blob}
    (hbnd : ∀ h, ∀ b ∈ blobs h, b.index < 65536) (h r : Nat)
    (hr : r ∈ yieldsAt blobs h) :
    h <<< 16 ≤ r ∧ r < (h + 1) <<< 16 := by
  rw [yieldsAt] at hr
  by_cases hh : 0 < h
  · rw [if_pos hh] at hr
    obtain ⟨b, hb, rfl⟩ := List.mem_map.mp hr
    have hidx := hbnd h b hb
    rw [blobRound, Nat.shiftLeft_eq, Nat.shiftLeft_eq]
    norm_num
    omega
  · rw [if_neg hh] at hr
    cases hr

theorem pairwise_yieldsAt {blobs : Nat → List Blob}
    (hidx : ∀ h, List.Pairwise (fun b1 b2 => b1.index < b2.index) (blobs h))
    (h : Nat) : List.Pairwise (· < ·) (yieldsAt blobs h) := by
  rw [yieldsAt]
  by_cases hh : 0 < h
  · rw [if_pos hh]
    refine List.Pairwise.map (blobRound h) ?_ (hidx h)
    intro a b hab
    rw [blobRound, blobRound]
    omega
  · rw [if_neg hh]
    exact List.Pairwise.nil

theorem heightsBlock_spec {blobs : Nat → List Blob}
    (hidx : ∀ h, List.Pairwise (fun b1 b2 => b1.index < b2.index) (blobs h))
    (hbnd : ∀ h, ∀ b ∈ blobs h, b.index < 65536) :
    ∀ (k fromH : Nat),
      List.Pairwise (· < ·)
        (((List.range k).map (fromH + ·)).flatMap (yieldsAt blobs)) ∧
      ∀ r ∈ ((List.range k).map (fromH + ·)).flatMap (yieldsAt blobs),
        fromH <<< 16 ≤ r ∧ r < (fromH + k) <<< 16 := by
  intro k
  induction k with
  | zero => intro fromH; simp
  | succ k ih =>
    intro fromH
    rw [List.range_succ, List.map_append, List.flatMap_append]
    obtain ⟨ihp, ihb⟩ := ih fromH
    have hshmono : ∀ a b : Nat, a ≤ b → a <<< 16 ≤ b <<< 16 := by
      intro a b hab
      rw [Nat.shiftLeft_eq, Nat.shiftLeft_eq]
      exact Nat.mul_le_mul_right _ hab
    constructor
    · rw [List.pairwise_append]
      refine ⟨ihp, ?_, ?_⟩
      · simpa using pairwise_yieldsAt hidx (fromH + k)
      · intro a ha b hb
        have h1 := (ihb a ha).2
        have h2 := (mem_yieldsAt_bounds hbnd (fromH + k) b (by simpa using hb)).1
        omega
    · intro r hr
      rcases List.mem_append.mp hr with hr | hr
      · have hb := ihb r hr
        have hmono : (fromH + k) <<< 16 ≤ (fromH + (k + 1)) <<< 16 :=
          hshmono _ _ (by omega)
        exact ⟨hb.1, by omega⟩
      · have hb := mem_yieldsAt_bounds hbnd (fromH + k) r (by simpa using hr)
        have hmono : fromH <<< 16 ≤ (fromH + k) <<< 16 := hshmono _ _ (by omega)
        have heq : fromH + k + 1 = fromH + (k + 1) := by omega
        refine ⟨by omega, ?_⟩
        rw [← heq]
        exact hb.2

theorem recvLoop_spec {blobs : Nat → List Blob}
    (hidx : ∀ h, List.Pairwise (fun b1 b2 => b1.index < b2.index) (blobs h))
    (hbnd : ∀ h, ∀ b ∈ blobs h, b.index < 65536) :
    ∀ (headers : List Nat) (fromH : Nat),
      List.Pairwise (· < ·) (recvLoop blobs fromH headers) ∧
      ∀ r ∈ recvLoop blobs fromH headers, fromH <<< 16 ≤ r := by
  intro headers
  induction headers with
  | nil => intro fromH; rw [recvLoop]; simp
  | cons curr rest ih =>
    intro fromH
    rw [recvLoop]
    by_cases hc : fromH ≤ curr
    · rw [if_pos hc]
      have hblock := heightsBlock_spec hidx hbnd (curr - fromH + 1) fromH
      rw [← heightsRange] at hblock
      obtain ⟨bp, bb⟩ := hblock
      obtain ⟨tp, tb⟩ := ih (curr + 1)
      have hcurr : fromH + (curr - fromH + 1) = curr + 1 := by omega
      rw [hcurr] at bb
      have hshmono : fromH <<< 16 ≤ (curr + 1) <<< 16 := by
        rw [Nat.shiftLeft_eq, Nat.shiftLeft_eq]
        exact Nat.mul_le_mul_right _ (by omega)
      constructor
      · rw [List.pairwise_append]
        refine ⟨bp, tp, ?_⟩
        intro a ha b hb
        have h1 := (bb a ha).2
        have h2 := tb b hb
        omega
      · intro r hr
        rcases List.mem_append.mp hr with hr | hr
        · exact (bb r hr).1
        · have := tb r hr
          omega
    · rw [if_neg hc]
      exact ih fromH

/-- C8: receiver ordering — when the DA node returns the blobs of each
height with strictly increasing indices below 2^16, the sequence of
`sync_round` values yielded by `recv_packages` over one connection is
strictly increasing, and every yielded round is at least
`(from_round >> 16) << 16` (the fetch starts at
`from_height = from_round >> 16`). -/
theorem recv_rounds_strictly_increasing (blobs : Nat → List Blob)
    (fromRound : Nat) (headers : List Nat)
    (hidx : ∀ h, List.Pairwise (fun b1 b2 => b1.index < b2.index) (blobs h))
    (hbnd : ∀ h, ∀ b ∈ blobs h, b.index < 65536) :
    List.Pairwise (· < ·) (recvRounds blobs fromRound headers) ∧
    ∀ r ∈ recvRounds blobs fromRound headers,
      (fromRound >>> 16) <<< 16 ≤ r := by
  rw [recvRounds]
  exact recvLoop_spec hidx hbnd headers (fromRound >>> 16)

theorem recv_rounds_strictly_increasing_witness :
    List.Pairwise (· < ·)
      (recvRounds (fun _ => [⟨0, []⟩, ⟨1, []⟩]) 65537 [2, 1, 4]) ∧
    ∀ r ∈ recvRounds (fun _ => [⟨0, []⟩, ⟨1, []⟩]) 65537 [2, 1, 4],
      ((65537 : Nat) >>> 16) <<< 16 ≤ r :=
  recv_rounds_strictly_increasing (fun _ => [⟨0, []⟩, ⟨1, []⟩]) 65537 [2, 1, 4]
    (fun _ => by
      show List.Pairwise (fun b1 b2 => b1.index < b2.index)
        [Blob.mk 0 [], Blob.mk 1 []]
      decide)
    (fun _ => by
      show ∀ b ∈ [Blob.mk 0 [], Blob.mk 1 []], b.index < 65536
      decide)

end Celestorm
